import Mathlib

/-!
Shallow embedding of the extraction core of the BoardBased-App crawler
(`src/Crawler/Crawler.py` and `src/Crawler/bgg_detail_from_csv_api_regex.py`).

Python strings are modelled as `List Char`; a Python dict produced by the
regex item parser is modelled by the structure `Item` whose optional fields
are exactly the keys the program ever stores or reads (an absent key is
`none`).  Python truthiness (`or`, `if v:`) is modelled explicitly: an int
is falsy iff it is `0`, a string is falsy iff it is empty, `None` is falsy.

The regular expressions of the source are hand-compiled to deterministic
matchers over `List Char`; `re.search` left-to-right scanning is modelled by
trying the anchored matcher at every suffix (`reSearch`).  Where the source
uses `re.IGNORECASE` the matcher compares characters through `Char.toLower`
(the ASCII fragment of Python case folding, which is all the program's
patterns need), and `\s` / `str.strip` use the ASCII whitespace set.
-/

namespace BoardBased

/-! ### Python string primitives -/

/-- ASCII fragment of the whitespace set used by Python's `str.strip`,
`str.lstrip` and the regex class `\s`. -/
def pyIsSpace (c : Char) : Bool :=
  c = ' ' || c = '\t' || c = '\n' || c = '\r' || c = '\x0b' || c = '\x0c'

/-- Model of `str.lstrip()` with no argument. -/
def pyLstrip (s : List Char) : List Char := s.dropWhile pyIsSpace

/-- Model of `str.strip()` with no argument. -/
def pyStrip (s : List Char) : List Char :=
  ((s.dropWhile pyIsSpace).reverse.dropWhile pyIsSpace).reverse

/-- Model of `str.startswith(prefixStr)`. -/
def pyStartswith : List Char → List Char → Bool
  | [], _ => true
  | _ :: _, [] => false
  | p :: ps, c :: cs => p == c && pyStartswith ps cs

/-- Python's substring test `pat in s`. -/
def containsSub : List Char → List Char → Bool
  | pat, [] => pyStartswith pat []
  | pat, s@(_ :: rest) => pyStartswith pat s || containsSub pat rest

/-- Model of `str.lower()` (ASCII fragment of Python case folding). -/
def pyLower (s : List Char) : List Char := s.map Char.toLower

/-- The characters `{` and `}` (written via code points throughout). -/
def lbrace : Char := Char.ofNat 123

def rbrace : Char := Char.ofNat 125

/-! ### The depth-aware, string-aware scan state

Both hand-written scanners of `Crawler.py` (`_slice_array_after_key`, which
counts `[`/`]`, and `_split_array_items_jsonish`, which counts the braces)
keep the same three loop variables `depth`, `in_str`, `esc` and update them
with the same branch structure; `depthStep op cl` is that loop body's state
update, instantiated with the bracket pair each loop counts. -/

structure ScanSt where
  depth : Int
  inStr : Bool
  esc : Bool
deriving DecidableEq

/-- One character's effect on `(depth, in_str, esc)` in the scan loops of
`_slice_array_after_key` (with `op = '['`, `cl = ']'`) and
`_split_array_items_jsonish` (with `op`/`cl` the braces). -/
def depthStep (op cl : Char) (st : ScanSt) (ch : Char) : ScanSt :=
  if st.inStr then
    if st.esc then { st with esc := false }
    else if ch = '\\' then { st with esc := true }
    else if ch = '"' then { st with inStr := false }
    else st
  else
    if ch = '"' then { st with inStr := true }
    else if ch = op then { st with depth := st.depth + 1 }
    else if ch = cl then { st with depth := st.depth - 1 }
    else st

/-- The scan loop of `_slice_array_after_key` (`Crawler.py` lines 251-275),
running on the suffix of the text that starts at position `i`; it returns
`text[start:j+1]` (the prefix of the suffix up to and including the `]` that
brings the depth back to `0`), or `none` when the end of the text is reached
first. -/
def sliceAux (st : ScanSt) : List Char → Option (List Char)
  | [] => none
  | ch :: rest =>
    if st.inStr = false ∧ ch = ']' ∧ (depthStep '[' ']' st ch).depth = 0 then
      some [ch]
    else
      (sliceAux (depthStep '[' ']' st ch) rest).map (fun s => ch :: s)

/-- The scan loop started at the opening bracket (`depth = 0`, not in a
string, no pending escape — the state at `j = i` in the source). -/
def sliceScanFromOpen (cs : List Char) : Option (List Char) :=
  sliceAux ⟨0, false, false⟩ cs

/-! ### `_split_array_items_jsonish` -/

/-- While a chunk is open (`obj_start is not None`) every scanned character
belongs to the eventual slice `s[obj_start:idx+1]`; the accumulator models
that slice. -/
def pushCur (cur : Option (List Char)) (ch : Char) : Option (List Char) :=
  cur.map (fun acc => acc ++ [ch])

/-- The chunk emitted at a `}` that brings the depth back to 0: the slice
`s[obj_start:idx+1]` when a chunk is open (`obj_start is not None`),
nothing otherwise. -/
def emitChunk (cur : Option (List Char)) (ch : Char) : List (List Char) :=
  match cur with
  | some acc => [acc ++ [ch]]
  | none => []

/-- The scan loop of `_split_array_items_jsonish` (`Crawler.py` lines
295-318): brace counting with the shared string handling; a chunk starts at
a `{` seen at depth 0 and is emitted at the `}` that brings the depth back
to 0. -/
def splitAux (st : ScanSt) (cur : Option (List Char)) : List Char → List (List Char)
  | [] => []
  | ch :: rest =>
    if st.inStr then splitAux (depthStep lbrace rbrace st ch) (pushCur cur ch) rest
    else if ch = '"' then splitAux (depthStep lbrace rbrace st ch) (pushCur cur ch) rest
    else if ch = lbrace then
      if st.depth = 0 then
        splitAux { st with depth := st.depth + 1 } (some [ch]) rest
      else
        splitAux { st with depth := st.depth + 1 } (pushCur cur ch) rest
    else if ch = rbrace then
      if st.depth - 1 = 0 then
        emitChunk cur ch ++ splitAux { st with depth := st.depth - 1 } none rest
      else
        splitAux { st with depth := st.depth - 1 } (pushCur cur ch) rest
    else splitAux st (pushCur cur ch) rest

/-- Model of `_split_array_items_jsonish` (`Crawler.py` lines 278-320): strip, drop
one leading `[` and one trailing `]` when present, then run the brace scan. -/
def _split_array_items_jsonish (array_text : List Char) : List (List Char) :=
  let s := pyStrip array_text
  let s := if s.head? = some '[' then s.tail else s
  let s := if s.getLast? = some ']' then s.dropLast else s
  splitAux ⟨0, false, false⟩ none s

/-! ### Text Normalizer: `unescape_json_unicode` (`Crawler.py` lines 110-118) -/

def isHexDigit (c : Char) : Bool :=
  c.isDigit || ('a' ≤ c && c ≤ 'f') || ('A' ≤ c && c ≤ 'F')

def hexVal (c : Char) : Nat :=
  if c.isDigit then c.toNat - '0'.toNat
  else if 'a' ≤ c && c ≤ 'f' then c.toNat - 'a'.toNat + 10
  else c.toNat - 'A'.toNat + 10

/-- Model of `_hex_esc_re.sub(...)`: left-to-right replacement of every `\uXXXX`
(4 hex digits) by `chr(int(XXXX, 16))`; scanning resumes after each match,
a `\u` not followed by 4 hex digits is left alone and scanning moves on. -/
def hexSub : List Char → List Char
  | [] => []
  | '\\' :: 'u' :: h1 :: h2 :: h3 :: h4 :: rest2 =>
    if isHexDigit h1 && isHexDigit h2 && isHexDigit h3 && isHexDigit h4 then
      Char.ofNat (((hexVal h1 * 16 + hexVal h2) * 16 + hexVal h3) * 16 + hexVal h4)
        :: hexSub rest2
    else '\\' :: hexSub ('u' :: h1 :: h2 :: h3 :: h4 :: rest2)
  | c :: rest => c :: hexSub rest

/-- Python `str.replace(old, new)` specialised to a two-character pattern
`[a, b]`: non-overlapping occurrences are replaced left to right and the
replacement text is not rescanned. -/
def replace2 (a b : Char) (rep : List Char) : List Char → List Char
  | [] => []
  | [c] => [c]
  | c :: d :: rest =>
    if c = a ∧ d = b then rep ++ replace2 a b rep rest
    else c :: replace2 a b rep (d :: rest)

/-- Model of `unescape_json_unicode` (`Crawler.py` lines 111-118): `\uXXXX`
substitution, then the chained `str.replace` calls in source order —
quote, slash, **backslash**, backspace, form-feed, newline,
carriage-return, tab. -/
def unescape_json_unicode (s : List Char) : List Char :=
  if s = [] then s
  else
    let s := hexSub s
    let s := replace2 '\\' '"' ['"'] s
    let s := replace2 '\\' '/' ['/'] s
    let s := replace2 '\\' '\\' ['\\'] s
    let s := replace2 '\\' 'b' ['\x08'] s
    let s := replace2 '\\' 'f' ['\x0c'] s
    let s := replace2 '\\' 'n' ['\n'] s
    let s := replace2 '\\' 'r' ['\r'] s
    let s := replace2 '\\' 't' ['\t'] s
    s

/-- Modelled from the spec's words (§4.1): the same escape pairs but in an
order in which backslash-unescaping happens last.  Used only to compare the
spec's claimed order with the source's order. -/
def unescapeSpecOrder (s : List Char) : List Char :=
  if s = [] then s
  else
    let s := hexSub s
    let s := replace2 '\\' '"' ['"'] s
    let s := replace2 '\\' '/' ['/'] s
    let s := replace2 '\\' 'b' ['\x08'] s
    let s := replace2 '\\' 'f' ['\x0c'] s
    let s := replace2 '\\' 'n' ['\n'] s
    let s := replace2 '\\' 'r' ['\r'] s
    let s := replace2 '\\' 't' ['\t'] s
    let s := replace2 '\\' '\\' ['\\'] s
    s

/-! ### `to_abs` (`Crawler.py` lines 128-135 and
`bgg_detail_from_csv_api_regex.py` lines 98-105 — the two files define the
same function, with parameter names `path` and `url`).

`urljoin(SITE_ROOT, path)` for a path beginning with `/` against the bare
site root is modelled as concatenation; `urljoin`'s dot-segment removal is
not modelled (no claim depends on it, and it cannot re-introduce a leading
`/` or `//`). -/

def SITE_ROOT : List Char := "https://boardgamegeek.com".data

def to_abs (path : List Char) : List Char :=
  if path = [] then []
  else if pyStartswith ("//".data) path then ("https:".data) ++ path
  else if pyStartswith ("/".data) path then SITE_ROOT ++ path
  else path

/-- The char-identical copy in `bgg_detail_from_csv_api_regex.py`. -/
def to_abs_detail (url : List Char) : List Char :=
  if url = [] then []
  else if pyStartswith ("//".data) url then ("https:".data) ++ url
  else if pyStartswith ("/".data) url then SITE_ROOT ++ url
  else url

/-! ### Items

An item dict produced by `parse_api_items_from_text`.  The fields are the
keys the parser stores (`id`/`objectid` as Python ints, the rest as
strings) plus the two keys the assembler reads but the parser never writes
(`objectname`, `year`); an absent key is `none`. -/

structure Item where
  id : Option Int := none
  objectid : Option Int := none
  name : Option (List Char) := none
  objectname : Option (List Char) := none
  yearpublished : Option Int := none
  year : Option Int := none
  href : Option (List Char) := none
  url : Option (List Char) := none
  subtype : Option (List Char) := none
  type : Option (List Char) := none
  images_original : Option (List Char) := none
  imageurl : Option (List Char) := none
  image : Option (List Char) := none
deriving DecidableEq

/-- Python `a or b` on optional ints: `a` when truthy (present and
nonzero), otherwise `b` exactly as stored (possibly `some 0`, possibly
`none`). -/
def pyOr2 (a b : Option Int) : Option Int :=
  match a with
  | some v => if v = 0 then b else some v
  | none => b

/-- Truthy projection of an optional int (`None` and `0` are falsy). -/
def truthyI : Option Int → Option Int
  | some v => if v = 0 then none else some v
  | none => none

/-- Truthy projection of an optional string (`None` and `""` are falsy). -/
def truthyS : Option (List Char) → Option (List Char)
  | some v => if v = [] then none else some v
  | none => none

/-- Model of `it.get(k) or ""` for a string-valued key. -/
def pyOrEmpty (a : Option (List Char)) : List Char :=
  match truthyS a with
  | some v => v
  | none => []

/-- Model of `a or b or ""` for two string-valued keys. -/
def pyStrChain2 (a b : Option (List Char)) : List Char :=
  match truthyS a with
  | some v => v
  | none => pyOrEmpty b

/-! ### `ID_RE` and `get_game_id` (`Crawler.py` lines 121, 162-176) -/

/-- Match a literal pattern at the head of the text, returning the rest. -/
def matchExact : List Char → List Char → Option (List Char)
  | [], s => some s
  | _ :: _, [] => none
  | p :: ps, c :: cs => if p = c then matchExact ps cs else none

def digitsToNat (ds : List Char) : Nat :=
  ds.foldl (fun a c => a * 10 + (c.toNat - '0'.toNat)) 0

/-- The `/(\d+)` tail of `ID_RE`: a slash followed by a greedy digit run. -/
def idTail (r : List Char) : Option Nat :=
  match r with
  | '/' :: rest =>
    let ds := rest.takeWhile Char.isDigit
    if ds = [] then none else some (digitsToNat ds)
  | _ => none

/-- Model of `ID_RE = /boardgame(?:expansion)?/(\d+)` anchored at one position: the
greedy optional group tries `expansion` first and backtracks to the empty
alternative if the tail fails. -/
def idMatchAt (s : List Char) : Option Nat :=
  match matchExact ("/boardgame".data) s with
  | none => none
  | some r1 =>
    match matchExact ("expansion".data) r1 with
    | some r2 => (idTail r2).orElse (fun _ => idTail r1)
    | none => idTail r1

/-- Model of `ID_RE.search`: leftmost match. -/
def idSearch : List Char → Option Nat
  | [] => none
  | s@(_ :: rest) => (idMatchAt s).orElse (fun _ => idSearch rest)

/-- Model of `get_game_id` (`Crawler.py` lines 162-176).  For parser-produced items
the id fields hold Python ints, so the `isinstance(gid, str)` branch is
dead and `isinstance(gid, int)` returns any present value (including `0`);
only when `gid` is `None` are `href` then `url` searched with `ID_RE`. -/
def get_game_id (it : Item) : Option Int :=
  match pyOr2 it.objectid it.id with
  | some gid => some gid
  | none =>
    match idSearch (pyOrEmpty it.href) with
    | some n => some (Int.ofNat n)
    | none =>
      match idSearch (pyOrEmpty it.url) with
      | some n => some (Int.ofNat n)
      | none => none

/-- Model of `is_expansion` (`Crawler.py` lines 178-186). -/
def is_expansion (it : Item) : Bool :=
  let st := pyLower (pyStrChain2 it.subtype it.type)
  if st = ("boardgameexpansion".data) then true
  else if containsSub ("/boardgameexpansion/".data) (pyLower (pyOrEmpty it.href)) then true
  else containsSub ("/boardgameexpansion/".data) (pyLower (pyOrEmpty it.url))

/-- Model of `parse_year` (`Crawler.py` lines 205-207): `str(y) if y else ""` after
the truthy chain `yearpublished or year or ""`. -/
def parse_year (it : Item) : List Char :=
  match truthyI it.yearpublished with
  | some y => (toString y).data
  | none =>
    match truthyI it.year with
    | some y => (toString y).data
    | none => []

/-- Model of `item_url` (`Crawler.py` lines 209-217). -/
def item_url (it : Item) : List Char :=
  match truthyS it.href with
  | some v => to_abs v
  | none =>
    match truthyS it.url with
    | some v => to_abs v
    | none =>
      match truthyI (pyOr2 it.objectid it.id) with
      | some g => to_abs ("/boardgame/".data ++ (toString g).data)
      | none => []

/-- Model of `pick_image_from_item` (`Crawler.py` lines 188-203).  The trailing
`images:{...}` dict probe is unreachable for parser-produced items (the
parser never stores an `images` mapping), so the fall-through result is
`""`. -/
def pick_image_from_item (it : Item) : List Char :=
  match truthyS it.images_original with
  | some v => to_abs v
  | none =>
    match truthyS it.imageurl with
    | some v => to_abs v
    | none =>
      match truthyS it.image with
      | some v => to_abs v
      | none => []

/-! ### The crawl loop (`crawl_category_via_api`, `main`;
`Crawler.py` lines 455-548)

The network is outside the embedding: a crawl run is parameterised by the
pages the API returned (one `List Item` per fetched page) per category.
The optional og:image HTTP upgrade of `final_img` only replaces the image
string and involves a fetch, so rows carry `pick_image_from_item`'s value.
Each emitted row is paired with the game id it was emitted under (the `gid`
computed in the same loop iteration) — bookkeeping needed to state the
per-id uniqueness of rows, not data the source stores in the tuple. -/

def MAX_PAGES_PER_CAT : Nat := 3

def TARGET_PER_CAT : Nat := 50

/-- The emitted tuple `(category, name, year, url, image_url)`. -/
structure Row where
  category : List Char
  name : List Char
  year : List Char
  url : List Char
  image_url : List Char
deriving DecidableEq

structure CrawlSt where
  rows : List (Int × Row)
  seen : List Int
deriving DecidableEq

/-- Model of `seen_ids.add(gid)` (set insertion). -/
def seenAdd (g : Int) (s : List Int) : List Int :=
  if g ∈ s then s else g :: s

/-- One iteration of the `for it in items` loop of
`crawl_category_via_api` (lines 476-506): skip expansions, skip items
without a truthy id, skip ids already seen, skip empty name or year;
otherwise append the row and record the id. -/
def processItem (category : List Char) (st : CrawlSt) (it : Item) : CrawlSt :=
  if is_expansion it then st
  else
    match get_game_id it with
    | none => st
    | some gid =>
      if gid = 0 then st
      else if gid ∈ st.seen then st
      else
        let name := pyStrip (pyStrChain2 it.name it.objectname)
        let year := parse_year it
        if name = [] ∨ year = [] then st
        else
          let url := item_url it
          let img := pick_image_from_item it
          { rows := st.rows ++ [(gid, ⟨category, name, year, url, img⟩)],
            seen := seenAdd gid st.seen }

/-- The `for it in items` loop with its `len(rows) >= TARGET_PER_CAT`
break, which is only reached on iterations that appended a row. -/
def processItems (cat : List Char) (st : CrawlSt) : List Item → CrawlSt
  | [] => st
  | it :: rest =>
    let st2 := processItem cat st it
    if TARGET_PER_CAT ≤ st2.rows.length ∧ st.rows.length < st2.rows.length then st2
    else processItems cat st2 rest

/-- The page loop of `crawl_category_via_api` (lines 466-513): stop on an
empty page, process the items, stop when the per-category target is
reached. -/
def crawlPages (cat : List Char) (st : CrawlSt) : List (List Item) → CrawlSt
  | [] => st
  | items :: rest =>
    if items = [] then st
    else
      let st2 := processItems cat st items
      if TARGET_PER_CAT ≤ st2.rows.length then st2
      else crawlPages cat st2 rest

/-- Model of `crawl_category_via_api`: category-local `rows = []`, shared
`seen_ids`; at most `MAX_PAGES_PER_CAT` pages are fetched. -/
def crawl_category_via_api (cat : List Char) (pages : List (List Item))
    (seen : List Int) : CrawlSt :=
  crawlPages cat { rows := [], seen := seen } (pages.take MAX_PAGES_PER_CAT)

/-- The category loop of `main` (lines 530-540): `all_rows.extend(rows)`
with the single `seen_ids` set threaded through every category. -/
def mainCrawl : List (List Char × List (List Item)) → List (Int × Row) → List Int →
    List (Int × Row) × List Int
  | [], allRows, seen => (allRows, seen)
  | (cat, pages) :: rest, allRows, seen =>
    let st := crawl_category_via_api cat pages seen
    mainCrawl rest (allRows ++ st.rows) st.seen

/-! ### Hand-compiled regexes of the parsing layer -/

/-- Case-insensitive character comparison (`re.IGNORECASE`). -/
def ciEq (a b : Char) : Bool := a.toLower == b.toLower

/-- Match a literal pattern case-insensitively at the head of the text. -/
def matchCI : List Char → List Char → Option (List Char)
  | [], s => some s
  | _ :: _, [] => none
  | p :: ps, c :: cs => if ciEq p c then matchCI ps cs else none

/-- Model of `re.search`: try the anchored matcher at every position, leftmost
success wins (every pattern below needs at least one character, so the
end-of-text position is covered by `matchAt []`). -/
def reSearch {α : Type} (matchAt : List Char → Option α) : List Char → Option α
  | [] => matchAt []
  | s@(_ :: rest) => (matchAt s).orElse (fun _ => reSearch matchAt rest)

/-- Model of `"(?:items|linkeditems|results)"\s*:\s*\[` (IGNORECASE) anchored at one
position; on success returns the suffix starting at the matched `[` (the
last character of the match, i.e. position `m.end() - 1`).  The `\s*:`
and `\s*\[` greedy-star-then-literal pairs are deterministic because the
literals are not whitespace. -/
def matchKeyAt (s : List Char) : Option (List Char) :=
  match s with
  | '"' :: r1 =>
    let tryKey (k : List Char) : Option (List Char) :=
      match matchCI k r1 with
      | some ('"' :: r2) =>
        match r2.dropWhile pyIsSpace with
        | ':' :: r4 =>
          match r4.dropWhile pyIsSpace with
          | '[' :: r6 => some ('[' :: r6)
          | _ => none
        | _ => none
      | _ => none
    ((tryKey ("items".data)).orElse fun _ =>
      ((tryKey ("linkeditems".data)).orElse fun _ =>
        tryKey ("results".data)))
  | _ => none

/-- Model of `items:\[` (IGNORECASE) anchored at one position, returning the suffix
starting at the matched `[`. -/
def matchItemsColonAt (s : List Char) : Option (List Char) :=
  match matchCI ("items:".data) s with
  | some ('[' :: r) => some ('[' :: r)
  | _ => none

/-- Model of `_slice_array_after_key(text, key_regex)` (`Crawler.py` lines 233-275),
parameterised by the compiled regex's search function, which here reports a
match as the suffix of `text` starting at the match's last character
(`m.end() - 1`; both regexes passed in by the source end in `[`).  The
defensive forward scan to the next `[` and the end-of-text check mirror
lines 244-249. -/
def _slice_array_after_key (search : List Char → Option (List Char))
    (text : List Char) : Option (List Char) :=
  match search text with
  | none => none
  | some suf =>
    let suf2 := if suf.head? = some '[' then suf
                else suf.dropWhile (fun c => !(c = '['))
    match suf2 with
    | [] => none
    | _ :: _ => sliceScanFromOpen suf2

/-- The Array Locator stage of `parse_api_items_from_text` (`Crawler.py`
lines 331-343): when the `lstrip`ped text starts with `[` the whole text is
treated as the array by slicing `'items:' + text` with the regex
`items:\[`; otherwise the text is sliced with the candidate-key regex. -/
def locate_array (text : List Char) : Option (List Char) :=
  if (pyLstrip text).head? = some '[' then
    _slice_array_after_key (reSearch matchItemsColonAt) (("items:".data) ++ text)
  else
    _slice_array_after_key (reSearch matchKeyAt) text

/-! #### Field patterns (`_rx_str`, `RX_ID_OBJID`, `_rx_num`,
`RX_IMG_ORIGINAL`; `Crawler.py` lines 78-103) -/

/-- The body `((?:\\.|[^"\\])*)"` of `_rx_str` after the opening quote:
returns the captured raw content and the rest after the closing quote.
The starred group cannot consume a bare `"`, so the greedy match is
deterministic: the star stops at the first unescaped quote, and the whole
pattern fails if the text ends first. -/
def strBody : List Char → Option (List Char × List Char)
  | [] => none
  | '"' :: rest => some ([], rest)
  | '\\' :: c :: rest => (strBody rest).map (fun p => ('\\' :: c :: p.1, p.2))
  | ['\\'] => none
  | c :: rest => (strBody rest).map (fun p => (c :: p.1, p.2))

/-- Model of `_rx_str(key) = "key"\s*:\s*"((?:\\.|[^"\\])*)"` (IGNORECASE) anchored
at one position, returning the captured raw string. -/
def strFieldAt (key : List Char) (s : List Char) : Option (List Char) :=
  match s with
  | '"' :: r1 =>
    match matchCI key r1 with
    | some ('"' :: r2) =>
      match r2.dropWhile pyIsSpace with
      | ':' :: r4 =>
        match r4.dropWhile pyIsSpace with
        | '"' :: r5 => (strBody r5).map (fun p => p.1)
        | _ => none
      | _ => none
    | _ => none
  | _ => none

/-- The `\s*:\s*"?(\d+)"?` tail of `RX_ID_OBJID` after the key's closing
quote.  If the optional opening quote is consumed but no digit follows, the
regex backtracks to the quoteless branch, which then also fails on the
quote character — so consuming the quote is decisive.  The trailing `"?`
does not affect the capture. -/
def idFieldCont (r2 : List Char) : Option Nat :=
  match r2 with
  | '"' :: r3 =>
    match r3.dropWhile pyIsSpace with
    | ':' :: r4 =>
      let r5 := r4.dropWhile pyIsSpace
      let r6 := match r5 with
                | '"' :: t => t
                | _ => r5
      let ds := r6.takeWhile Char.isDigit
      if ds = [] then none else some (digitsToNat ds)
    | _ => none
  | _ => none

/-- Model of `RX_ID_OBJID = "(?:objectid|id)"\s*:\s*"?(\d+)"?` (IGNORECASE) anchored
at one position; the alternation retries `id` when the `objectid` branch
fails anywhere to its right. -/
def idFieldAt (s : List Char) : Option Nat :=
  match s with
  | '"' :: r1 =>
    ((match matchCI ("objectid".data) r1 with
      | some r2 => idFieldCont r2
      | none => none).orElse fun _ =>
      match matchCI ("id".data) r1 with
      | some r2 => idFieldCont r2
      | none => none)
  | _ => none

/-- The number tail `"?(-?\d+(?:\.\d+)?)"?` of `_rx_num` combined with the
consumer `int(float(capture))`: the truncated value is the signed integer
part (the greedy fractional group never changes it).  Very large literals,
where `float` overflow would be caught by the source's `try`, are modelled
by their exact integer part. -/
def numTail (r5 : List Char) : Option Int :=
  let q := match r5 with
           | '"' :: t => t
           | _ => r5
  let (neg, r6) := match q with
                   | '-' :: t => (true, t)
                   | _ => (false, q)
  let ds := r6.takeWhile Char.isDigit
  if ds = [] then none
  else
    let n : Int := Int.ofNat (digitsToNat ds)
    some (if neg then -n else n)

/-- Model of `_rx_num(key) = "key"\s*:\s*"?(-?\d+(?:\.\d+)?)"?` (IGNORECASE)
anchored at one position, already composed with `int(float(·))`. -/
def numFieldAt (key : List Char) (s : List Char) : Option Int :=
  match s with
  | '"' :: r1 =>
    match matchCI key r1 with
    | some ('"' :: r2) =>
      match r2.dropWhile pyIsSpace with
      | ':' :: r4 => numTail (r4.dropWhile pyIsSpace)
      | _ => none
    | _ => none
  | _ => none

/-- Model of `"original"\s*:\s*"(.*?)"` (IGNORECASE, DOTALL) anchored at one
position inside the `images` object: the lazy `(.*?)` captures up to the
first quote, and fails when no closing quote follows. -/
def origAt (s : List Char) : Option (List Char) :=
  match s with
  | '"' :: r1 =>
    match matchCI ("original".data) r1 with
    | some ('"' :: r2) =>
      match r2.dropWhile pyIsSpace with
      | ':' :: r3 =>
        match r3.dropWhile pyIsSpace with
        | '"' :: r4 =>
          match r4.dropWhile (fun c => !(c = '"')) with
          | '"' :: _ => some (r4.takeWhile (fun c => !(c = '"')))
          | _ => none
        | _ => none
      | _ => none
    | _ => none
  | _ => none

/-- The lazy `[^{}]*?` scan after the `{` of `RX_IMG_ORIGINAL`: try the
`"original"` subpattern at the earliest offset, consuming only non-brace
characters; a brace stops the star and fails this start position. -/
def imgScan : List Char → Option (List Char)
  | [] => none
  | s@(c :: rest) =>
    match origAt s with
    | some content => some content
    | none => if c = lbrace ∨ c = rbrace then none else imgScan rest

/-- Model of `RX_IMG_ORIGINAL = "images"\s*:\s*\{[^{}]*?"original"\s*:\s*"(.*?)"`
(IGNORECASE, DOTALL) anchored at one position. -/
def imgOriginalAt (s : List Char) : Option (List Char) :=
  match s with
  | '"' :: r1 =>
    match matchCI ("images".data) r1 with
    | some ('"' :: r2) =>
      match r2.dropWhile pyIsSpace with
      | ':' :: r3 =>
        match r3.dropWhile pyIsSpace with
        | c :: r4 => if c = lbrace then imgScan r4 else none
        | _ => none
      | _ => none
    | _ => none
  | _ => none

/-- The `for chunk in raw_objs` body of `parse_api_items_from_text`
(`Crawler.py` lines 352-404).  The guards `"url" not in item` and
`"type" not in item` are always true at their point of evaluation (nothing
stores those keys earlier), so they are not modelled as conditions. -/
def extract_item_fields (chunk : List Char) : Item :=
  let it0 : Item := {}
  let it1 := match reSearch idFieldAt chunk with
    | some g => { it0 with id := some (Int.ofNat g), objectid := some (Int.ofNat g) }
    | none => it0
  let it2 := match reSearch (strFieldAt ("name".data)) chunk with
    | some v => { it1 with name := some (unescape_json_unicode v) }
    | none => it1
  let it3 := match reSearch (numFieldAt ("yearpublished".data)) chunk with
    | some y => { it2 with yearpublished := some y }
    | none => it2
  let it4 := match reSearch (strFieldAt ("href".data)) chunk with
    | some v => { it3 with href := some (unescape_json_unicode v) }
    | none => it3
  let it5 := match reSearch (strFieldAt ("url".data)) chunk with
    | some v => { it4 with url := some (unescape_json_unicode v) }
    | none => it4
  let it6 := match reSearch (strFieldAt ("subtype".data)) chunk with
    | some v => { it5 with subtype := some v }
    | none => it5
  let it7 := match reSearch (strFieldAt ("type".data)) chunk with
    | some v => { it6 with type := some v }
    | none => it6
  match reSearch imgOriginalAt chunk with
  | some v => { it7 with images_original := some (unescape_json_unicode v) }
  | none =>
    match reSearch (strFieldAt ("imageurl".data)) chunk with
    | some v => { it7 with imageurl := some (unescape_json_unicode v) }
    | none =>
      match reSearch (strFieldAt ("image".data)) chunk with
      | some v => { it7 with image := some (unescape_json_unicode v) }
      | none => it7

/-- Model of `parse_api_items_from_text` (`Crawler.py` lines 323-406): locate the
array, split it into top-level chunks, extract the fields of each chunk.
(`if not raw_objs: return []` coincides with mapping over the empty list.) -/
def parse_api_items_from_text (text : List Char) : List Item :=
  if text = [] then []
  else
    match locate_array text with
    | none => []
    | some arr =>
      if arr = [] then []
      else (_split_array_items_jsonish arr).map extract_item_fields

/-! ### `uniq` (`bgg_detail_from_csv_api_regex.py` lines 210-217)

The list de-duplication applied by `parse_detail_from_xml_text` to the
accumulated alternate-name and designer/artist/publisher matches before
joining them with `" | "`. -/

def uniqAux (seen : List (List Char)) : List (List Char) → List (List Char)
  | [] => []
  | x :: rest =>
    if x ≠ [] ∧ x ∉ seen then x :: uniqAux (x :: seen) rest
    else uniqAux seen rest

def uniq (xs : List (List Char)) : List (List Char) := uniqAux [] xs

/-- Modelled from the spec's words (§3, §4.6): keep the first occurrence of
every distinct value, in order of first appearance (fuel-indexed to keep
the recursion structural).  Used to state what `uniq` computes. -/
def dedupFirst : Nat → List (List Char) → List (List Char)
  | 0, _ => []
  | _ + 1, [] => []
  | n + 1, x :: rest => x :: dedupFirst n (rest.filter (fun y => !(y == x)))

/-! ### Invariants used to specify the splitter and the crawl loop -/

/-- A well-formed top-level chunk: nonempty, starts with `{`, ends with
`}`, the string-aware brace depth returns to zero exactly at its end and
stays at one or more on every proper nonempty prefix. -/
def GoodChunk (c : List Char) : Prop :=
  c ≠ [] ∧ c.head? = some lbrace ∧ c.getLast? = some rbrace ∧
  (List.foldl (depthStep lbrace rbrace) ⟨0, false, false⟩ c).depth = 0 ∧
  (∀ p q, c = p ++ q → p ≠ [] → q ≠ [] →
    1 ≤ (List.foldl (depthStep lbrace rbrace) ⟨0, false, false⟩ p).depth)

/-- Invariant of the splitter scan: no stale escape flag outside a string,
and the open-chunk accumulator (when a chunk is open) starts at a `{`,
replays to the current scan state, and has kept the depth positive. -/
def SplitInv (st : ScanSt) (cur : Option (List Char)) : Prop :=
  (st.inStr = false → st.esc = false) ∧
  ∀ acc, cur = some acc →
    acc ≠ [] ∧ acc.head? = some lbrace ∧ 1 ≤ st.depth ∧
    List.foldl (depthStep lbrace rbrace) ⟨0, false, false⟩ acc = st ∧
    (∀ p q, acc = p ++ q → p ≠ [] → q ≠ [] →
      1 ≤ (List.foldl (depthStep lbrace rbrace) ⟨0, false, false⟩ p).depth)

/-- A concrete well-formed item (id 7, name `G`, year 1999) used to
exercise the dedup behaviour on concrete runs. -/
def itemG : Item :=
  { objectid := some 7, name := some ("G".data), yearpublished := some 1999 }

/-- A two-category crawl input in which the API returns the same item for
both categories. -/
def catsG : List (List Char × List (List Item)) :=
  [(("a".data), [[itemG]]), (("b".data), [[itemG]])]

/-- Invariant of the crawl loop relative to the seen-set `seen0` it started
from: the ids of the rows emitted so far are pairwise distinct, each is
recorded in the current seen-set and none was in `seen0`, and `seen0` is
still contained in the current seen-set. -/
def RunInv (seen0 : List Int) (st : CrawlSt) : Prop :=
  (st.rows.map Prod.fst).Nodup ∧
  (∀ g, g ∈ st.rows.map Prod.fst → g ∈ st.seen ∧ g ∉ seen0) ∧
  (∀ g, g ∈ seen0 → g ∈ st.seen)

/-! ## Theorems -/

/-! ### Properties of the depth-aware scan step -/

/-- Inside a quoted string no character changes the depth. -/
theorem depthStep_inStr_depth (op cl : Char) (st : ScanSt) (ch : Char)
    (h : st.inStr = true) : (depthStep op cl st ch).depth = st.depth := by
  unfold depthStep
  rw [if_pos h]
  split_ifs <;> rfl

/-- Inside a quoted string, a character read while an escape is pending
(in particular an escaped quote) leaves the string open. -/
theorem depthStep_esc_inStr (op cl : Char) (st : ScanSt) (ch : Char)
    (h : st.inStr = true) (he : st.esc = true) :
    (depthStep op cl st ch).inStr = true := by
  unfold depthStep
  rw [if_pos h, if_pos he]
  exact h

/-- If the depth is at least one and the step is not the closing step that
returns it to zero, the depth stays at least one. -/
theorem depthStep_ge_one (op cl : Char) (st : ScanSt) (ch : Char)
    (h1 : 1 ≤ st.depth)
    (h2 : ¬(st.inStr = false ∧ ch = cl ∧ (depthStep op cl st ch).depth = 0)) :
    1 ≤ (depthStep op cl st ch).depth := by
  by_cases hi : st.inStr = true
  · rw [depthStep_inStr_depth op cl st ch hi]; exact h1
  · have hi' : st.inStr = false := by
      cases hx : st.inStr
      · rfl
      · exact absurd hx hi
    unfold depthStep at *
    rw [if_neg hi] at *
    split_ifs at * with hq ho hc
    · exact h1
    · show 1 ≤ st.depth + 1
      omega
    · have hnz : ¬ st.depth - 1 = 0 := by
        intro h0
        exact h2 ⟨hi', hc, h0⟩
      show 1 ≤ st.depth - 1
      omega
    · exact h1

/-! ### Specification of the slicer scan loop -/

/-- When the scan loop returns a slice, that slice is the prefix of the
scanned text that ends at the `]` bringing the depth back to zero, and
every shorter nonempty stretch leaves the depth at one or more. -/
theorem sliceAux_some_spec (cs : List Char) : ∀ (st : ScanSt) (res : List Char),
    1 ≤ st.depth → sliceAux st cs = some res →
    (∃ t, cs = res ++ t) ∧ res ≠ [] ∧ res.getLast? = some ']' ∧
    (List.foldl (depthStep '[' ']') st res).depth = 0 ∧
    (∀ p q, res = p ++ q → q ≠ [] →
      1 ≤ (List.foldl (depthStep '[' ']') st p).depth) := by
  induction cs with
  | nil =>
    intro st res _ h
    simp [sliceAux] at h
  | cons ch rest ih =>
    intro st res hd h
    rw [sliceAux] at h
    by_cases hret : st.inStr = false ∧ ch = ']' ∧ (depthStep '[' ']' st ch).depth = 0
    · rw [if_pos hret] at h
      have hres : res = [ch] := by
        cases h
        rfl
      subst hres
      refine ⟨⟨rest, rfl⟩, by simp, by simp [hret.2.1], by simpa using hret.2.2, ?_⟩
      intro p q hpq hq
      cases p with
      | nil => simpa using hd
      | cons a p' =>
        injection hpq with h1 h2
        rcases List.append_eq_nil.mp h2.symm with ⟨_, hq'⟩
        exact absurd hq' hq
    · rw [if_neg hret] at h
      rcases Option.map_eq_some'.mp h with ⟨res', hres', hcons⟩
      have hd2 : 1 ≤ (depthStep '[' ']' st ch).depth := depthStep_ge_one _ _ _ _ hd hret
      rcases ih (depthStep '[' ']' st ch) res' hd2 hres' with ⟨⟨t, ht⟩, hne, hlast, hfold, hpre⟩
      subst hcons
      refine ⟨⟨t, by simp [ht]⟩, by simp, ?_, ?_, ?_⟩
      · cases res' with
        | nil => exact absurd rfl hne
        | cons b bs => simpa using hlast
      · simpa using hfold
      · intro p q hpq hq
        cases p with
        | nil => simpa using hd
        | cons a p' =>
          injection hpq with h1 h2
          rw [List.foldl_cons, ← h1]
          exact hpre p' q h2 hq

/-- When the scan loop reaches the end of the text, the depth never
returned to zero along the way. -/
theorem sliceAux_none_spec (cs : List Char) : ∀ (st : ScanSt),
    1 ≤ st.depth → sliceAux st cs = none →
    ∀ p q, cs = p ++ q → 1 ≤ (List.foldl (depthStep '[' ']') st p).depth := by
  induction cs with
  | nil =>
    intro st hd _ p q hpq
    rcases List.append_eq_nil.mp hpq.symm with ⟨hp, _⟩
    subst hp
    simpa using hd
  | cons ch rest ih =>
    intro st hd h
    rw [sliceAux] at h
    by_cases hret : st.inStr = false ∧ ch = ']' ∧ (depthStep '[' ']' st ch).depth = 0
    · rw [if_pos hret] at h
      cases h
    · rw [if_neg hret] at h
      have hnone : sliceAux (depthStep '[' ']' st ch) rest = none :=
        Option.map_eq_none'.mp h
      have hd2 : 1 ≤ (depthStep '[' ']' st ch).depth := depthStep_ge_one _ _ _ _ hd hret
      intro p q hpq
      cases p with
      | nil => simpa using hd
      | cons a p' =>
        injection hpq with h1 h2
        rw [List.foldl_cons, ← h1]
        exact ih (depthStep '[' ']' st ch) hd2 hnone p' q h2

/-- Unfolding the scan loop over its first character, the opening `[`. -/
theorem sliceScanFromOpen_cons (cs : List Char) :
    sliceScanFromOpen ('[' :: cs) =
      (sliceAux ⟨1, false, false⟩ cs).map (fun s => '[' :: s) := by
  rw [sliceScanFromOpen, sliceAux, if_neg (by decide),
    show depthStep '[' ']' ⟨0, false, false⟩ '[' = (⟨1, false, false⟩ : ScanSt) from by decide]

/-- C1: starting at an opening `[`, the scan loop of
`_slice_array_after_key` ignores brackets and quotes inside a quoted string
(an escaped quote does not end the string), and returns the inclusive
prefix from the opening bracket to the `]` that brings the depth back to
zero — every shorter nonempty prefix keeps the depth at one or more; when
the text ends before the depth returns to zero it returns `none` (Python
`None`), never a wrong slice and never an exception (the model is a total
function). -/
theorem C1_depth_aware_slicer (cs res : List Char) :
    (∀ st ch, st.inStr = true → (depthStep '[' ']' st ch).depth = st.depth) ∧
    (∀ st ch, st.inStr = true → st.esc = true → (depthStep '[' ']' st ch).inStr = true) ∧
    (sliceScanFromOpen ('[' :: cs) = some res →
      (∃ t, '[' :: cs = res ++ t) ∧ res ≠ [] ∧ res.head? = some '[' ∧
      res.getLast? = some ']' ∧
      (List.foldl (depthStep '[' ']') ⟨0, false, false⟩ res).depth = 0 ∧
      (∀ p q, res = p ++ q → p ≠ [] → q ≠ [] →
        1 ≤ (List.foldl (depthStep '[' ']') ⟨0, false, false⟩ p).depth)) ∧
    (sliceScanFromOpen ('[' :: cs) = none →
      ∀ p q, '[' :: cs = p ++ q → p ≠ [] →
        1 ≤ (List.foldl (depthStep '[' ']') ⟨0, false, false⟩ p).depth) := by
  have hstep : depthStep '[' ']' ⟨0, false, false⟩ '[' = (⟨1, false, false⟩ : ScanSt) := by
    decide
  refine ⟨fun st ch h => depthStep_inStr_depth _ _ st ch h,
    fun st ch h he => depthStep_esc_inStr _ _ st ch h he, ?_, ?_⟩
  · intro h
    rw [sliceScanFromOpen_cons] at h
    rcases Option.map_eq_some'.mp h with ⟨res', hres', hcons⟩
    rcases sliceAux_some_spec cs ⟨1, false, false⟩ res' (by norm_num) hres' with
      ⟨⟨t, ht⟩, hne, hlast, hfold, hpre⟩
    subst hcons
    refine ⟨⟨t, by simp [ht]⟩, by simp, rfl, ?_, ?_, ?_⟩
    · cases res' with
      | nil => exact absurd rfl hne
      | cons b bs => simpa using hlast
    · rw [List.foldl_cons, hstep]
      exact hfold
    · intro p q hpq hp hq
      cases p with
      | nil => exact absurd rfl hp
      | cons a p' =>
        injection hpq with h1 h2
        rw [List.foldl_cons, ← h1, hstep]
        exact hpre p' q h2 hq
  · intro h
    rw [sliceScanFromOpen_cons] at h
    have hnone : sliceAux ⟨1, false, false⟩ cs = none := Option.map_eq_none'.mp h
    intro p q hpq hp
    cases p with
    | nil => exact absurd rfl hp
    | cons a p' =>
      injection hpq with h1 h2
      rw [List.foldl_cons, ← h1, hstep]
      exact sliceAux_none_spec cs ⟨1, false, false⟩ (by norm_num) hnone p' q h2

/-- Witness for C1 at concrete inputs: `["x]y",[2]]` (brackets inside the
quoted string are opaque) is sliced whole, and the truncated `[1,2` keeps
the depth at one or more all the way to its end. -/
theorem C1_depth_aware_slicer_witness :
    ("[\"x]y\",[2]]".data).getLast? = some ']' ∧
    (List.foldl (depthStep '[' ']') ⟨0, false, false⟩ ("[\"x]y\",[2]]".data)).depth = 0 ∧
    1 ≤ (List.foldl (depthStep '[' ']') ⟨0, false, false⟩ ("[1,2".data)).depth := by
  refine ⟨?_, ?_, ?_⟩
  · exact ((C1_depth_aware_slicer ("\"x]y\",[2]]".data)
      ("[\"x]y\",[2]]".data)).2.2.1 (by decide)).2.2.2.1
  · exact ((C1_depth_aware_slicer ("\"x]y\",[2]]".data)
      ("[\"x]y\",[2]]".data)).2.2.1 (by decide)).2.2.2.2.1
  · exact (C1_depth_aware_slicer ("1,2".data) []).2.2.2 (by decide)
      ("[1,2".data) [] (by decide) (by decide)

/-! ### Specification of the splitter scan loop -/

/-- Outside a string, a character that is neither a quote nor a counted
bracket leaves the scan state unchanged. -/
theorem depthStep_other (op cl : Char) (st : ScanSt) (ch : Char)
    (hi : st.inStr = false) (h1 : ch ≠ '"') (h2 : ch ≠ op) (h3 : ch ≠ cl) :
    depthStep op cl st ch = st := by
  simp [depthStep, hi, h1, h2, h3]

/-- The `in_str → ¬esc` housekeeping survives every step. -/
theorem depthStep_esc_inv (op cl : Char) (st : ScanSt) (ch : Char)
    (h : st.inStr = false → st.esc = false) :
    (depthStep op cl st ch).inStr = false → (depthStep op cl st ch).esc = false := by
  rcases st with ⟨d, i, e⟩
  cases i <;> cases e <;> simp_all [depthStep] <;> split_ifs <;> simp_all

/-- Split of `p ++ q = acc ++ [x]` with `q` nonempty: either `p` is all of
`acc`, or `p ++ q'` is `acc` for some nonempty `q'`. -/
theorem append_singleton_decomp {α : Type} (acc : List α) :
    ∀ (p q : List α) (x : α), p ++ q = acc ++ [x] → q ≠ [] →
    (p = acc ∧ q = [x]) ∨ (∃ q', acc = p ++ q' ∧ q' ≠ []) := by
  induction acc with
  | nil =>
    intro p q x h hq
    cases p with
    | nil => exact Or.inl ⟨rfl, by simpa using h⟩
    | cons a p' =>
      injection h with h1 h2
      rcases List.append_eq_nil.mp h2 with ⟨_, hq'⟩
      exact absurd hq' hq
  | cons b acc' ih =>
    intro p q x h hq
    cases p with
    | nil => exact Or.inr ⟨b :: acc', rfl, by simp⟩
    | cons a p' =>
      injection h with h1 h2
      rcases ih p' q x h2 hq with ⟨hp, hqx⟩ | ⟨q', hacc, hq'⟩
      · exact Or.inl ⟨by rw [h1, hp], hqx⟩
      · exact Or.inr ⟨q', by simp [h1, hacc], hq'⟩

/-- Head of an append with a nonempty left part. -/
theorem head?_append_left {α : Type} (l l' : List α) (h : l ≠ []) :
    (l ++ l').head? = l.head? := by
  cases l with
  | nil => exact absurd rfl h
  | cons a t => rfl

/-- Pushing the scanned character onto an open accumulator preserves the
splitter invariant, provided the new depth is still positive whenever a
chunk is open. -/
theorem SplitInv_push (st st2 : ScanSt) (cur : Option (List Char)) (ch : Char)
    (hinv : SplitInv st cur)
    (hstep : depthStep lbrace rbrace st ch = st2)
    (hdep : ∀ acc, cur = some acc → 1 ≤ st2.depth) :
    SplitInv st2 (pushCur cur ch) := by
  constructor
  · intro h
    rw [← hstep] at h ⊢
    exact depthStep_esc_inv _ _ st ch hinv.1 h
  · intro acc' hacc'
    cases cur with
    | none => simp [pushCur] at hacc'
    | some acc =>
      have hacc'' : acc' = acc ++ [ch] := by
        simpa [pushCur] using hacc'.symm
      rcases hinv.2 acc rfl with ⟨hne, hhead, hdep1, hfold, hpre⟩
      subst hacc''
      refine ⟨by simp, ?_, hdep acc rfl, ?_, ?_⟩
      · rw [head?_append_left acc [ch] hne]
        exact hhead
      · rw [List.foldl_append, hfold]
        simpa using hstep
      · intro p q hpq hp hq
        rcases append_singleton_decomp acc p q ch hpq.symm hq with ⟨hpa, _⟩ | ⟨q', hacc2, hq'⟩
        · rw [hpa, hfold]
          exact hdep1
        · exact hpre p q' hacc2 hp hq'

/-- Every chunk emitted by the splitter scan loop, started in a state
satisfying the invariant, is a well-formed top-level brace group. -/
theorem splitAux_chunks (s : List Char) : ∀ (st : ScanSt) (cur : Option (List Char)),
    SplitInv st cur → ∀ c ∈ splitAux st cur s, GoodChunk c := by
  induction s with
  | nil =>
    intro st cur _ c hc
    simp [splitAux] at hc
  | cons ch rest ih =>
    intro st cur hinv c hc
    rw [splitAux] at hc
    by_cases hi : st.inStr
    · rw [if_pos hi] at hc
      refine ih _ _ (SplitInv_push st _ cur ch hinv rfl ?_) c hc
      intro acc hacc
      rw [depthStep_inStr_depth _ _ st ch hi]
      exact (hinv.2 acc hacc).2.2.1
    · rw [if_neg hi] at hc
      have hi' : st.inStr = false := by
        cases hx : st.inStr
        · rfl
        · exact absurd hx hi
      by_cases hq : ch = '"'
      · rw [if_pos hq] at hc
        refine ih _ _ (SplitInv_push st _ cur ch hinv rfl ?_) c hc
        intro acc hacc
        have : (depthStep lbrace rbrace st ch).depth = st.depth := by
          simp [depthStep, hi', hq]
        rw [this]
        exact (hinv.2 acc hacc).2.2.1
      · rw [if_neg hq] at hc
        by_cases hob : ch = lbrace
        · rw [if_pos hob] at hc
          have hstep : depthStep lbrace rbrace st ch =
              { st with depth := st.depth + 1 } := by
            simp [depthStep, hi', hq, hob, show ¬lbrace = '\"' from by decide]
          by_cases hz : st.depth = 0
          · rw [if_pos hz] at hc
            refine ih _ _ ⟨?_, ?_⟩ c hc
            · intro
              exact hinv.1 hi'
            · intro acc hacc
              have hacc' : acc = [ch] := by
                cases hacc
                rfl
              subst hacc'
              have hesc : st.esc = false := hinv.1 hi'
              refine ⟨by simp, by simp [hob], by simp [hz], ?_, ?_⟩
              · show depthStep lbrace rbrace ⟨0, false, false⟩ ch = _
                simp [depthStep, hob, show lbrace ≠ '"' from by decide]
                rcases st with ⟨d, i, e⟩
                simp at hi' hesc hz
                simp [hi', hesc, hz]
              · intro p q hpq hp hq'
                cases p with
                | nil => exact absurd rfl hp
                | cons a p' =>
                  injection hpq with h1 h2
                  rcases List.append_eq_nil.mp h2.symm with ⟨_, hq2⟩
                  exact absurd hq2 hq'
          · rw [if_neg hz] at hc
            refine ih _ _ (SplitInv_push st _ cur ch hinv hstep ?_) c hc
            intro acc hacc
            have := (hinv.2 acc hacc).2.2.1
            show 1 ≤ st.depth + 1
            omega
        · rw [if_neg hob] at hc
          by_cases hcb : ch = rbrace
          · rw [if_pos hcb] at hc
            have hstep : depthStep lbrace rbrace st ch =
                { st with depth := st.depth - 1 } := by
              simp [depthStep, hi', hq, hob, hcb, show ¬rbrace = '\"' from by decide,
                show ¬rbrace = lbrace from by decide]
            by_cases hz : st.depth - 1 = 0
            · rw [if_pos hz] at hc
              rcases List.mem_append.mp hc with hcem | hcrest
              · cases hcur : cur with
                | none =>
                  rw [hcur] at hcem
                  simp [emitChunk] at hcem
                | some acc =>
                  rw [hcur] at hcem
                  simp only [emitChunk, List.mem_singleton] at hcem
                  subst hcem
                  rcases hinv.2 acc hcur with ⟨hne, hhead, hdep1, hfold, hpre⟩
                  refine ⟨by simp, ?_, by simp [hcb], ?_, ?_⟩
                  · rw [head?_append_left acc [ch] hne]
                    exact hhead
                  · rw [List.foldl_append, hfold]
                    simp only [List.foldl_cons, List.foldl_nil]
                    rw [hstep]
                    exact hz
                  · intro p q' hpq hp hq'
                    rcases append_singleton_decomp acc p q' ch hpq.symm hq' with
                      ⟨hpa, _⟩ | ⟨q2, hacc2, hq2⟩
                    · rw [hpa, hfold]
                      exact hdep1
                    · exact hpre p q2 hacc2 hp hq2
              · refine ih _ _ ⟨?_, ?_⟩ c hcrest
                · intro
                  exact hinv.1 hi'
                · intro acc2 hacc2
                  cases hacc2
            · rw [if_neg hz] at hc
              refine ih _ _ (SplitInv_push st _ cur ch hinv hstep ?_) c hc
              intro acc hacc
              have := (hinv.2 acc hacc).2.2.1
              show 1 ≤ st.depth - 1
              omega
          · rw [if_neg hcb] at hc
            refine ih _ _ (SplitInv_push st _ cur ch hinv
              (depthStep_other _ _ st ch hi' hq hob hcb) ?_) c hc
            intro acc hacc
            exact (hinv.2 acc hacc).2.2.1

/-- C2 counterexample: the claim states that a malformed array yields zero
chunks, but on the truncated array `[{},` the splitter emits the one chunk
`{}` that closed before the truncation — a nonzero number of chunks. -/
theorem C2_top_level_splitter_counterexample :
    _split_array_items_jsonish ("[\x7b\x7d,".data) = [("\x7b\x7d".data)] ∧
    ¬ _split_array_items_jsonish ("[\x7b\x7d,".data) = [] := by
  exact ⟨by decide, by decide⟩

/-- C2 (amended): after stripping the outer array brackets the splitter
emits exactly one chunk per completed top-level `{...}` group — each
emitted chunk is nonempty, starts with `{`, ends with `}`, and its
string-aware brace depth first returns to zero at its final character, so
braces nested deeper or inside quoted strings never split a chunk; the
array `[{"a":"x"},{"a":"y{z}"}]` yields exactly two chunks with the
brace-bearing string intact, a nested-object array yields one chunk per
top-level group, and an empty array — or a malformed array in which no
top-level group completes — yields zero chunks without raising (the model
is a total function; a malformed array in general yields exactly the
chunks completed before the malformed tail). -/
theorem C2_top_level_splitter (s c : List Char) :
    (c ∈ _split_array_items_jsonish s → GoodChunk c) ∧
    _split_array_items_jsonish ("[\x7b\"a\":\"x\"\x7d,\x7b\"a\":\"y\x7bz\x7d\"\x7d]".data) =
      [("\x7b\"a\":\"x\"\x7d".data), ("\x7b\"a\":\"y\x7bz\x7d\"\x7d".data)] ∧
    _split_array_items_jsonish ("[\x7b\"a\":\x7b\"b\":1\x7d\x7d,\x7b\x7d]".data) =
      [("\x7b\"a\":\x7b\"b\":1\x7d\x7d".data), ("\x7b\x7d".data)] ∧
    _split_array_items_jsonish ("[]".data) = [] ∧
    _split_array_items_jsonish ([]) = [] ∧
    _split_array_items_jsonish ("[\x7b".data) = [] := by
  refine ⟨?_, by decide, by decide, by decide, by decide, by decide⟩
  intro hc
  simp only [_split_array_items_jsonish] at hc
  exact splitAux_chunks _ ⟨0, false, false⟩ none
    ⟨fun _ => rfl, fun acc h => by cases h⟩ c hc

/-- Witness for C2: the brace-bearing chunk of the two-chunk example is a
well-formed top-level group. -/
theorem C2_top_level_splitter_witness :
    GoodChunk ("\x7b\"a\":\"y\x7bz\x7d\"\x7d".data) := by
  exact (C2_top_level_splitter
    ("[\x7b\"a\":\"x\"\x7d,\x7b\"a\":\"y\x7bz\x7d\"\x7d]".data)
    ("\x7b\"a\":\"y\x7bz\x7d\"\x7d".data)).1 (by decide)

/-! ### C3: the Text Normalizer's replacement order -/

/-- C3 counterexample: in the source the backslash pair is resolved third,
before the single-letter escapes, so on `\\t` the backslash produced by
collapsing `\\` merges with the following `t` and is unescaped a second
time, yielding a tab — while the spec's backslash-last order keeps the
backslash. -/
theorem C3_normalizer_counterexample :
    unescape_json_unicode ['\\', '\\', 't'] = ['\t'] ∧
    unescapeSpecOrder ['\\', '\\', 't'] = ['\\', '\t'] ∧
    ¬ unescape_json_unicode ['\\', '\\', 't'] = unescapeSpecOrder ['\\', '\\', 't'] := by
  exact ⟨by decide, by decide, by decide⟩

/-- C3 (amended): `unescape_json_unicode` first converts every 4-hex-digit
`\uXXXX` escape and then resolves the fixed pairs in the source order
quote, slash, backslash, backspace, form-feed, newline, carriage-return,
tab — backslash-unescaping is *not* last, so a backslash produced by
collapsing `\\` can be consumed again by a later letter escape (`\\t`
becomes a tab, `\\b` a backspace); the input `é\/path\ttab` still
yields the accented character, a literal slash, `path`, a tab and `tab`,
and empty input yields empty output. -/
theorem C3_normalizer :
    unescape_json_unicode ("\\u00e9\\/path\\ttab".data) = ("é/path\ttab".data) ∧
    unescape_json_unicode [] = [] ∧
    unescape_json_unicode ['\\', '\\', 't'] = ['\t'] ∧
    unescape_json_unicode ['\\', '\\', 'b'] = ['\x08'] := by
  exact ⟨by decide, by decide, by decide, by decide⟩

/-! ### C4: the Array Locator -/

/-- The first element surviving `dropWhile` falsifies the predicate. -/
theorem dropWhile_head_false {α : Type} (p : α → Bool) :
    ∀ (l : List α) (c : α) (cs : List α), l.dropWhile p = c :: cs → p c = false := by
  intro l
  induction l with
  | nil =>
    intro c cs h
    simp at h
  | cons a t ih =>
    intro c cs h
    rw [List.dropWhile_cons] at h
    by_cases hp : p a
    · rw [if_pos hp] at h
      exact ih c cs h
    · rw [if_neg hp] at h
      injection h with h1 _
      rw [← h1]
      exact Bool.of_not_eq_true hp

/-- Whatever search function is used, a slice produced by
`_slice_array_after_key` is a balanced bracket region: nonempty, anchored
at `[`, ending at the `]` that returns the string-aware depth to zero. -/
theorem slice_after_key_shape (search : List Char → Option (List Char))
    (text res : List Char)
    (h : _slice_array_after_key search text = some res) :
    res ≠ [] ∧ res.head? = some '[' ∧ res.getLast? = some ']' ∧
    (List.foldl (depthStep '[' ']') ⟨0, false, false⟩ res).depth = 0 := by
  rw [_slice_array_after_key] at h
  cases hs : search text with
  | none => rw [hs] at h; cases h
  | some suf =>
    rw [hs] at h
    simp only at h
    set suf2 := if suf.head? = some '[' then suf
                else suf.dropWhile (fun c => !(c = '[')) with hsuf2
    have hopen : ∀ c cs, suf2 = c :: cs → c = '[' := by
      intro c cs hcc
      rw [hsuf2] at hcc
      by_cases hh : suf.head? = some '['
      · rw [if_pos hh] at hcc
        rw [hcc] at hh
        simpa using hh
      · rw [if_neg hh] at hcc
        have := dropWhile_head_false (fun c => !(c = '[')) suf c cs hcc
        simpa using this
    cases hc2 : suf2 with
    | nil => rw [hc2] at h; cases h
    | cons c cs =>
      rw [hc2] at h
      have hc : c = '[' := hopen c cs hc2
      subst hc
      rw [sliceScanFromOpen_cons] at h
      rcases Option.map_eq_some'.mp h with ⟨res', hres', hcons⟩
      rcases sliceAux_some_spec cs ⟨1, false, false⟩ res' (by norm_num) hres' with
        ⟨_, hne, hlast, hfold, _⟩
      subst hcons
      refine ⟨by simp, rfl, ?_, ?_⟩
      · cases res' with
        | nil => exact absurd rfl hne
        | cons b bs => simpa using hlast
      · rw [List.foldl_cons,
          show depthStep '[' ']' ⟨0, false, false⟩ '[' = (⟨1, false, false⟩ : ScanSt)
            from by decide]
        exact hfold

/-- A case-insensitive literal matches itself (prefix form). -/
theorem matchCI_self (pat : List Char) : ∀ s, matchCI pat (pat ++ s) = some s := by
  induction pat with
  | nil => intro s; rfl
  | cons a ps ih =>
    intro s
    show (if ciEq a a then matchCI ps (ps ++ s) else none) = some s
    rw [if_pos (by simp [ciEq]), ih s]

/-- In the whole-text-array fallback mode, the prepended `items:` is found
at position zero and the locator reduces to the scan loop on the text
itself. -/
theorem locate_array_fallback (rest : List Char) :
    locate_array ('[' :: rest) = sliceScanFromOpen ('[' :: rest) := by
  have hlstrip : pyLstrip ('[' :: rest) = '[' :: rest := by
    rw [pyLstrip, List.dropWhile_cons, if_neg (by decide)]
  rw [locate_array, if_pos (by rw [hlstrip]; rfl)]
  have hmatch : matchItemsColonAt (("items:".data) ++ ('[' :: rest)) =
      some ('[' :: rest) := by
    rw [matchItemsColonAt, matchCI_self]
    exact rfl
  have hsearch : reSearch matchItemsColonAt (("items:".data) ++ ('[' :: rest)) =
      some ('[' :: rest) := by
    show (matchItemsColonAt (("items:".data) ++ ('[' :: rest))).orElse _ = _
    rw [hmatch]
    rfl
  rw [_slice_array_after_key, hsearch]
  rfl

/-- C4 counterexample: the locator takes the leftmost key match in the
text, not the first matching key in candidate-list order — on
`{"results":[1],"items":[2]}` it returns the `results` array `[1]`, not
the `items` array `[2]`; and the whole-text-array fallback fails on a pure
array with leading whitespace (` [1]` is detected as an array by the
`lstrip` test, but `'items:' + text` then contains `items:` followed by
whitespace, which `items:\[` cannot match), returning `none` although an
array is present. -/
theorem C4_array_locator_counterexample :
    locate_array ("\x7b\"results\":[1],\"items\":[2]\x7d".data) = some ("[1]".data) ∧
    ¬ locate_array ("\x7b\"results\":[1],\"items\":[2]\x7d".data) = some ("[2]".data) ∧
    locate_array (" [1]".data) = none := by
  exact ⟨by decide, by decide, by decide⟩

/-- C4 (amended): the Array Locator finds the leftmost match *in the text*
of a candidate key name (`items`, `linkeditems`, `results`) followed by a
colon and `[` — position order, not candidate-list order, decides between
distinct keys — and returns the balanced array substring anchored at that
`[`; when the text itself starts with `[` the fallback mode captures the
balanced array from that bracket (leading whitespace defeats the fallback),
and when the locator fails the parser returns the empty item list rather
than raising (the model is a total function). -/
theorem C4_array_locator (text res rest : List Char) :
    (locate_array text = some res →
      res ≠ [] ∧ res.head? = some '[' ∧ res.getLast? = some ']' ∧
      (List.foldl (depthStep '[' ']') ⟨0, false, false⟩ res).depth = 0) ∧
    locate_array ('[' :: rest) = sliceScanFromOpen ('[' :: rest) ∧
    (locate_array text = none → parse_api_items_from_text text = []) ∧
    locate_array ("\x7b\"results\":[1],\"items\":[2]\x7d".data) = some ("[1]".data) := by
  refine ⟨?_, locate_array_fallback rest, ?_, by decide⟩
  · intro h
    rw [locate_array] at h
    by_cases hb : (pyLstrip text).head? = some '['
    · rw [if_pos hb] at h
      exact slice_after_key_shape _ _ res h
    · rw [if_neg hb] at h
      exact slice_after_key_shape _ _ res h
  · intro h
    rw [parse_api_items_from_text]
    by_cases ht : text = []
    · rw [if_pos ht]
    · rw [if_neg ht, h]

/-- Witness for C4: the slice returned on `{"results":[1],"items":[2]}` is
a balanced array region. -/
theorem C4_array_locator_witness :
    ("[1]".data) ≠ [] ∧ ("[1]".data).head? = some '[' ∧
    ("[1]".data).getLast? = some ']' ∧
    (List.foldl (depthStep '[' ']') ⟨0, false, false⟩ ("[1]".data)).depth = 0 := by
  exact (C4_array_locator ("\x7b\"results\":[1],\"items\":[2]\x7d".data)
    ("[1]".data) []).1 (by decide)

/-! ### C5: game-id resolution order and the no-id drop -/

/-- C5: `get_game_id` resolves the id in the order explicit
`objectid`/`id` field (Python-truthy `or`), then a numeric id parsed from
`href` by `ID_RE`, then one parsed from `url`, first success winning; and
an item for which none of these yields an id is skipped by the assembler
loop without any change to the row list (the whole crawl state is
unchanged). -/
theorem C5_game_id_resolution (it : Item) (cat : List Char) (st : CrawlSt) :
    (∀ g, pyOr2 it.objectid it.id = some g → get_game_id it = some g) ∧
    (pyOr2 it.objectid it.id = none →
      ∀ n, idSearch (pyOrEmpty it.href) = some n →
        get_game_id it = some (Int.ofNat n)) ∧
    (pyOr2 it.objectid it.id = none → idSearch (pyOrEmpty it.href) = none →
      get_game_id it = (idSearch (pyOrEmpty it.url)).map Int.ofNat) ∧
    (get_game_id it = none → processItem cat st it = st) := by
  refine ⟨?_, ?_, ?_, ?_⟩
  · intro g h
    rw [get_game_id, h]
  · intro h n hn
    rw [get_game_id, h, hn]
  · intro h hn
    rw [get_game_id, h, hn]
    cases hu : idSearch (pyOrEmpty it.url) <;> simp [hu]
  · intro h
    rw [processItem]
    by_cases he : is_expansion it
    · rw [if_pos he]
    · rw [if_neg he, h]

/-- Witness for C5: an explicit id wins, an href id is used when the
explicit fields are absent, the url is the last resort, and an item with
no id field at all leaves the crawl state untouched. -/
theorem C5_game_id_resolution_witness :
    get_game_id ({ objectid := some 7 } : Item) = some 7 ∧
    get_game_id ({ href := some ("/boardgame/123/x".data) } : Item) = some (Int.ofNat 123) ∧
    get_game_id ({ url := some ("/boardgameexpansion/9".data) } : Item) =
      (idSearch (pyOrEmpty (some ("/boardgameexpansion/9".data)))).map Int.ofNat ∧
    processItem [] ⟨[], []⟩ ({} : Item) = ⟨[], []⟩ := by
  refine ⟨?_, ?_, ?_, ?_⟩
  · exact (C5_game_id_resolution ({ objectid := some 7 } : Item) [] ⟨[], []⟩).1 7 (by decide)
  · exact (C5_game_id_resolution ({ href := some ("/boardgame/123/x".data) } : Item)
      [] ⟨[], []⟩).2.1 (by decide) 123 (by decide)
  · exact (C5_game_id_resolution ({ url := some ("/boardgameexpansion/9".data) } : Item)
      [] ⟨[], []⟩).2.2.1 (by decide) (by decide)
  · exact (C5_game_id_resolution ({} : Item) [] ⟨[], []⟩).2.2.2 (by decide)

/-! ### C6: expansion detection and exclusion -/

/-- C6: `is_expansion` is true exactly when the truthy-chained
`subtype`/`type` field lowercases to `boardgameexpansion` or the lowercased
`href`/`url` contains the path segment `/boardgameexpansion/`; and every
item it flags is skipped by the assembler loop unchanged, so an expansion
is never emitted as a summary record regardless of its other fields. -/
theorem C6_expansion_exclusion (it : Item) (cat : List Char) (st : CrawlSt) :
    (is_expansion it = true ↔
      (pyLower (pyStrChain2 it.subtype it.type) = ("boardgameexpansion".data) ∨
       containsSub ("/boardgameexpansion/".data) (pyLower (pyOrEmpty it.href)) = true ∨
       containsSub ("/boardgameexpansion/".data) (pyLower (pyOrEmpty it.url)) = true)) ∧
    (is_expansion it = true → processItem cat st it = st) := by
  constructor
  · simp only [is_expansion]
    split_ifs with h1 h2
    · simp [h1]
    · simp [h2]
    · constructor
      · intro h
        exact Or.inr (Or.inr h)
      · rintro (ha | hb | hc)
        · exact absurd ha h1
        · exact absurd hb h2
        · exact hc
  · intro h
    rw [processItem, if_pos h]

/-- Witness for C6: an otherwise-complete item whose subtype is the
expansion marker (in mixed case) is flagged and leaves the crawl state
untouched. -/
theorem C6_expansion_exclusion_witness :
    is_expansion
        { subtype := some ("BoardGameExpansion".data), objectid := some 3,
          name := some ("X".data), yearpublished := some 2001 } = true ∧
    processItem [] ⟨[], []⟩
        { subtype := some ("BoardGameExpansion".data), objectid := some 3,
          name := some ("X".data), yearpublished := some 2001 } = ⟨[], []⟩ := by
  refine ⟨?_, ?_⟩
  · exact (C6_expansion_exclusion
      { subtype := some ("BoardGameExpansion".data), objectid := some 3,
        name := some ("X".data), yearpublished := some 2001 }
      [] ⟨[], []⟩).1.mpr (Or.inl (by decide))
  · exact (C6_expansion_exclusion
      { subtype := some ("BoardGameExpansion".data), objectid := some 3,
        name := some ("X".data), yearpublished := some 2001 }
      [] ⟨[], []⟩).2 (by decide)

/-! ### C7: the Dedup Set -/

theorem mem_seenAdd_of_mem (g x : Int) (s : List Int) (h : g ∈ s) :
    g ∈ seenAdd x s := by
  rw [seenAdd]
  split_ifs
  · exact h
  · exact List.mem_cons_of_mem x h

theorem self_mem_seenAdd (x : Int) (s : List Int) : x ∈ seenAdd x s := by
  rw [seenAdd]
  split_ifs with h
  · exact h
  · exact List.mem_cons_self x s

/-- The assembler loop iteration either leaves the state unchanged or
appends one row whose id was not yet seen and records that id. -/
theorem processItem_cases (cat : List Char) (st : CrawlSt) (it : Item) :
    processItem cat st it = st ∨
    ∃ gid row, get_game_id it = some gid ∧ gid ∉ st.seen ∧
      processItem cat st it =
        { rows := st.rows ++ [(gid, row)], seen := seenAdd gid st.seen } := by
  rw [processItem]
  by_cases he : is_expansion it
  · rw [if_pos he]
    exact Or.inl rfl
  · rw [if_neg he]
    cases hg : get_game_id it with
    | none => exact Or.inl rfl
    | some gid =>
      dsimp only
      by_cases h0 : gid = 0
      · rw [if_pos h0]
        exact Or.inl rfl
      · rw [if_neg h0]
        by_cases hs : gid ∈ st.seen
        · rw [if_pos hs]
          exact Or.inl rfl
        · rw [if_neg hs]
          by_cases hny : pyStrip (pyStrChain2 it.name it.objectname) = [] ∨ parse_year it = []
          · rw [if_pos hny]
            exact Or.inl rfl
          · rw [if_neg hny]
            exact Or.inr ⟨gid, _, rfl, hs, rfl⟩

/-- The seen-set only ever gains elements at each loop iteration. -/
theorem processItem_seen_mono (cat : List Char) (st : CrawlSt) (it : Item)
    (g : Int) (h : g ∈ st.seen) : g ∈ (processItem cat st it).seen := by
  rcases processItem_cases cat st it with heq | ⟨gid, row, _, _, heq⟩ <;> rw [heq]
  · exact h
  · exact mem_seenAdd_of_mem g gid st.seen h

/-- An id already in the seen-set is discarded silently: the iteration
changes nothing. -/
theorem processItem_dup_skip (cat : List Char) (st : CrawlSt) (it : Item)
    (g : Int) (hg : get_game_id it = some g) (h : g ∈ st.seen) :
    processItem cat st it = st := by
  rcases processItem_cases cat st it with heq | ⟨gid, row, hgid, hnot, heq⟩
  · exact heq
  · rw [hg] at hgid
    cases hgid
    exact absurd h hnot

theorem processItem_inv (seen0 : List Int) (cat : List Char) (st : CrawlSt)
    (it : Item) (hinv : RunInv seen0 st) : RunInv seen0 (processItem cat st it) := by
  rcases processItem_cases cat st it with heq | ⟨gid, row, _, hnot, heq⟩ <;> rw [heq]
  · exact hinv
  · rcases hinv with ⟨hnd, hmem, hsub⟩
    refine ⟨?_, ?_, ?_⟩
    · simp only [List.map_append, List.map_cons, List.map_nil]
      rw [List.nodup_append]
      refine ⟨hnd, List.nodup_singleton gid, ?_⟩
      intro a ha hb
      rcases List.mem_singleton.mp hb with rfl
      exact hnot (hmem a ha).1
    · intro g hgm
      simp only [List.map_append, List.map_cons, List.map_nil] at hgm
      rcases List.mem_append.mp hgm with hgl | hgr
      · exact ⟨mem_seenAdd_of_mem g gid st.seen (hmem g hgl).1, (hmem g hgl).2⟩
      · rcases List.mem_singleton.mp hgr with rfl
        refine ⟨self_mem_seenAdd g st.seen, ?_⟩
        intro hg0
        exact hnot (hsub g hg0)
    · intro g hg0
      exact mem_seenAdd_of_mem g gid st.seen (hsub g hg0)

theorem processItems_inv (seen0 : List Int) (cat : List Char) (items : List Item) :
    ∀ st : CrawlSt, RunInv seen0 st → RunInv seen0 (processItems cat st items) := by
  induction items with
  | nil =>
    intro st hinv
    exact hinv
  | cons it rest ih =>
    intro st hinv
    rw [processItems]
    split_ifs
    · exact processItem_inv seen0 cat st it hinv
    · exact ih _ (processItem_inv seen0 cat st it hinv)

theorem crawlPages_inv (seen0 : List Int) (cat : List Char) (pages : List (List Item)) :
    ∀ st : CrawlSt, RunInv seen0 st → RunInv seen0 (crawlPages cat st pages) := by
  induction pages with
  | nil =>
    intro st hinv
    exact hinv
  | cons items rest ih =>
    intro st hinv
    rw [crawlPages]
    by_cases h1 : items = []
    · rw [if_pos h1]
      exact hinv
    · rw [if_neg h1]
      dsimp only
      split_ifs
      · exact processItems_inv seen0 cat items st hinv
      · exact ih _ (processItems_inv seen0 cat items st hinv)

/-- One category run: its rows have pairwise distinct ids, each id is
recorded in the final seen-set and was not previously seen, and the
seen-set grew monotonically. -/
theorem crawl_category_inv (cat : List Char) (pages : List (List Item))
    (seen : List Int) : RunInv seen (crawl_category_via_api cat pages seen) := by
  apply crawlPages_inv
  exact ⟨List.nodup_nil, fun g hg => absurd hg (by simp), fun g hg => hg⟩

theorem mainCrawl_seen_mono (cats : List (List Char × List (List Item))) :
    ∀ (allRows : List (Int × Row)) (seen : List Int) (g : Int), g ∈ seen →
      g ∈ (mainCrawl cats allRows seen).2 := by
  induction cats with
  | nil =>
    intro allRows seen g hg
    exact hg
  | cons cp rest ih =>
    rcases cp with ⟨cat, pages⟩
    intro allRows seen g hg
    rw [mainCrawl]
    exact ih _ _ g ((crawl_category_inv cat pages seen).2.2 g hg)

/-- Along the whole run, the accumulated rows keep pairwise distinct ids,
all recorded in the (monotonically growing) seen-set. -/
theorem mainCrawl_spec (cats : List (List Char × List (List Item))) :
    ∀ (allRows : List (Int × Row)) (seen : List Int),
      (allRows.map Prod.fst).Nodup → (∀ g ∈ allRows.map Prod.fst, g ∈ seen) →
      ((mainCrawl cats allRows seen).1.map Prod.fst).Nodup ∧
      (∀ g ∈ (mainCrawl cats allRows seen).1.map Prod.fst,
        g ∈ (mainCrawl cats allRows seen).2) := by
  induction cats with
  | nil =>
    intro allRows seen hnd hsub
    exact ⟨hnd, hsub⟩
  | cons cp rest ih =>
    rcases cp with ⟨cat, pages⟩
    intro allRows seen hnd hsub
    rw [mainCrawl]
    rcases crawl_category_inv cat pages seen with ⟨hnd2, hmem2, hmono2⟩
    apply ih
    · simp only [List.map_append]
      rw [List.nodup_append]
      refine ⟨hnd, hnd2, ?_⟩
      intro a ha hb
      exact (hmem2 a hb).2 (hsub a ha)
    · intro g hg
      simp only [List.map_append] at hg
      rcases List.mem_append.mp hg with hgl | hgr
      · exact hmono2 g (hsub g hgl)
      · exact (hmem2 g hgr).1

/-- C7: the Dedup Set `seen_ids` only ever gains elements — every loop
iteration maps the seen-set into the new seen-set — and it enforces
at-most-once emission per game id: an id already seen is discarded with
the state unchanged (first occurrence wins), the seen-set survives the
whole run monotonically, and over an entire crawl from the fresh state the
ids carried by the emitted rows are pairwise distinct and all recorded in
the final seen-set. -/
theorem C7_dedup_set (cats : List (List Char × List (List Item))) (cat : List Char)
    (st : CrawlSt) (it : Item) (g : Int) :
    (g ∈ st.seen → g ∈ (processItem cat st it).seen) ∧
    (get_game_id it = some g → g ∈ st.seen → processItem cat st it = st) ∧
    (∀ allRows seen, g ∈ seen → g ∈ (mainCrawl cats allRows seen).2) ∧
    ((mainCrawl cats [] []).1.map Prod.fst).Nodup ∧
    (∀ x ∈ (mainCrawl cats [] []).1.map Prod.fst, x ∈ (mainCrawl cats [] []).2) := by
  refine ⟨processItem_seen_mono cat st it g, processItem_dup_skip cat st it g,
    fun allRows seen hg => mainCrawl_seen_mono cats allRows seen g hg, ?_, ?_⟩
  · exact (mainCrawl_spec cats [] [] List.nodup_nil (fun x hx => absurd hx (by simp))).1
  · exact (mainCrawl_spec cats [] [] List.nodup_nil (fun x hx => absurd hx (by simp))).2

/-- Witness for C7: with the id `7` already seen, the set keeps it and a
second item carrying id `7` is discarded unchanged; a two-category run that
returns the same item in both categories emits rows with pairwise distinct
ids. -/
theorem C7_dedup_set_witness :
    7 ∈ (processItem [] ⟨[], [7]⟩ itemG).seen ∧
    processItem [] ⟨[], [7]⟩ itemG = ⟨[], [7]⟩ ∧
    ((mainCrawl catsG [] []).1.map Prod.fst).Nodup := by
  refine ⟨?_, ?_, ?_⟩
  · exact (C7_dedup_set [] [] ⟨[], [7]⟩ itemG 7).1 (by decide)
  · exact (C7_dedup_set [] [] ⟨[], [7]⟩ itemG 7).2.1 (by decide) (by decide)
  · exact (C7_dedup_set catsG [] ⟨[], []⟩ {} 0).2.2.2.1

/-! ### C8: the parsing layer never raises and is chunk-local -/

/-- C8: `parse_api_items_from_text` is a total function — empty input and
any input in which no array is located give the empty list, any located
array gives exactly one field map per completed top-level chunk — and a
malformed chunk does not prevent extraction of the chunks that closed
before the break point: on a response whose second chunk never closes, the
first chunk's fields are still extracted. -/
theorem C8_parse_never_raises (text arr : List Char) :
    parse_api_items_from_text [] = [] ∧
    (locate_array text = none → parse_api_items_from_text text = []) ∧
    (locate_array text = some arr →
      parse_api_items_from_text text =
        (_split_array_items_jsonish arr).map extract_item_fields) ∧
    parse_api_items_from_text
        ("\x7b\"items\":[\x7b\"id\":\"1\",\"name\":\"Catan\"\x7d,\x7b\"oops\":]\x7d".data) =
      [{ id := some 1, objectid := some 1, name := some ("Catan".data) }] := by
  refine ⟨rfl, ?_, ?_, by decide⟩
  · intro h
    rw [parse_api_items_from_text]
    by_cases ht : text = []
    · rw [if_pos ht]
    · rw [if_neg ht, h]
  · intro h
    have ht : ¬ text = [] := by
      intro he
      subst he
      rw [show locate_array [] = none from by decide] at h
      cases h
    rw [parse_api_items_from_text, if_neg ht, h]
    dsimp only
    by_cases ha : arr = []
    · rw [if_pos ha, ha]
      rfl
    · rw [if_neg ha]

/-- Witness for C8: the truncated response used in the claim, with its
located array and the one chunk that closed before the break point. -/
theorem C8_parse_never_raises_witness :
    parse_api_items_from_text
        ("\x7b\"items\":[\x7b\"id\":\"1\",\"name\":\"Catan\"\x7d,\x7b\"oops\":]\x7d".data) =
      (_split_array_items_jsonish
        ("[\x7b\"id\":\"1\",\"name\":\"Catan\"\x7d,\x7b\"oops\":]".data)).map
        extract_item_fields := by
  exact (C8_parse_never_raises
    ("\x7b\"items\":[\x7b\"id\":\"1\",\"name\":\"Catan\"\x7d,\x7b\"oops\":]\x7d".data)
    ("[\x7b\"id\":\"1\",\"name\":\"Catan\"\x7d,\x7b\"oops\":]".data)).2.2.1 (by decide)

/-! ### C9: `uniq` de-duplicates preserving first-seen order -/

theorem uniqAux_sublist (xs : List (List Char)) :
    ∀ seen, List.Sublist (uniqAux seen xs) xs := by
  induction xs with
  | nil =>
    intro seen
    exact List.Sublist.refl []
  | cons x rest ih =>
    intro seen
    rw [uniqAux]
    split_ifs
    · exact (ih (x :: seen)).cons₂ x
    · exact (ih seen).cons x

theorem uniqAux_mem_prop (xs : List (List Char)) :
    ∀ seen x, x ∈ uniqAux seen xs → x ≠ [] ∧ x ∉ seen := by
  induction xs with
  | nil =>
    intro seen x hx
    simp [uniqAux] at hx
  | cons y rest ih =>
    intro seen x hx
    rw [uniqAux] at hx
    split_ifs at hx with hy
    · rcases List.mem_cons.mp hx with rfl | hx'
      · exact ⟨hy.1, hy.2⟩
      · have h := ih (y :: seen) x hx'
        exact ⟨h.1, fun hs => h.2 (List.mem_cons_of_mem y hs)⟩
    · exact ih seen x hx

theorem uniqAux_nodup (xs : List (List Char)) : ∀ seen, (uniqAux seen xs).Nodup := by
  induction xs with
  | nil =>
    intro seen
    exact List.nodup_nil
  | cons y rest ih =>
    intro seen
    rw [uniqAux]
    split_ifs with hy
    · rw [List.nodup_cons]
      refine ⟨?_, ih (y :: seen)⟩
      intro hmem
      exact (uniqAux_mem_prop rest (y :: seen) y hmem).2 (List.mem_cons_self y seen)
    · exact ih seen

theorem uniqAux_complete (xs : List (List Char)) :
    ∀ seen x, x ∈ xs → x ≠ [] → x ∉ seen → x ∈ uniqAux seen xs := by
  induction xs with
  | nil =>
    intro seen x hx
    simp at hx
  | cons y rest ih =>
    intro seen x hx hne hns
    rw [uniqAux]
    split_ifs with hy
    · rcases List.mem_cons.mp hx with rfl | hx'
      · exact List.mem_cons_self x _
      · by_cases hxy : x = y
        · subst hxy
          exact List.mem_cons_self x _
        · refine List.mem_cons_of_mem y (ih (y :: seen) x hx' hne ?_)
          intro hmem
          rcases List.mem_cons.mp hmem with h1 | h2
          · exact hxy h1
          · exact hns h2
    · rcases List.mem_cons.mp hx with rfl | hx'
      · rcases not_and_or.mp hy with h1 | h2
        · exact absurd hne h1
        · exact absurd (not_not.mp h2) hns
      · exact ih seen x hx' hne hns

/-- The fuel of `dedupFirst` is irrelevant once it covers the list length. -/
theorem dedupFirst_fuel (n : Nat) : ∀ (m : Nat) (xs : List (List Char)),
    xs.length ≤ n → xs.length ≤ m → dedupFirst n xs = dedupFirst m xs := by
  induction n with
  | zero =>
    intro m xs hn _
    have hx : xs = [] := List.length_eq_zero.mp (Nat.le_zero.mp hn)
    subst hx
    cases m <;> rfl
  | succ n ih =>
    intro m xs hn hm
    cases xs with
    | nil => cases m <;> rfl
    | cons x rest =>
      cases m with
      | zero => simp at hm
      | succ m' =>
        rw [dedupFirst, dedupFirst]
        congr 1
        have hlen : (rest.filter (fun y => !(y == x))).length ≤ rest.length :=
          List.length_filter_le _ rest
        exact ih m' (rest.filter (fun y => !(y == x)))
          (le_trans hlen (Nat.le_of_succ_le_succ hn))
          (le_trans hlen (Nat.le_of_succ_le_succ hm))

/-- The function `uniqAux` computes exactly the spec-side first-occurrence dedup of the
values that are nonempty and not yet seen. -/
theorem uniqAux_eq_dedupFirst (n : Nat) :
    ∀ (xs seen : List (List Char)), xs.length ≤ n →
      uniqAux seen xs =
        dedupFirst n (xs.filter (fun y => decide (y ≠ [] ∧ y ∉ seen))) := by
  induction n with
  | zero =>
    intro xs seen h
    have hx : xs = [] := List.length_eq_zero.mp (Nat.le_zero.mp h)
    subst hx
    rfl
  | succ n ih =>
    intro xs seen h
    cases xs with
    | nil => rfl
    | cons x rest =>
      have hrest : rest.length ≤ n := Nat.le_of_succ_le_succ (by simpa using h)
      rw [uniqAux, List.filter_cons]
      by_cases hx : x ≠ [] ∧ x ∉ seen
      · rw [if_pos hx, if_pos (by simpa using hx)]
        rw [dedupFirst]
        congr 1
        rw [List.filter_filter]
        rw [ih rest (x :: seen) hrest]
        congr 1
        apply List.filter_congr
        intro y _
        by_cases h1 : y = [] <;> by_cases h2 : y ∈ seen <;> by_cases h3 : y = x <;>
          simp [h1, h2, h3, List.mem_cons]
      · rw [if_neg hx, if_neg (by simpa using hx)]
        rw [ih rest seen hrest]
        exact dedupFirst_fuel n (n + 1) _
          (le_trans (List.length_filter_le _ rest) hrest)
          (le_trans (List.length_filter_le _ rest) (Nat.le_succ_of_le hrest))

/-- C9: `uniq` — the de-duplication `parse_detail_from_xml_text` applies to
every accumulated credit list and to the alternate-names list before
joining — returns exactly the first occurrence of every distinct nonempty
value in first-seen order: its output equals the spec-side first-occurrence
dedup of the nonempty entries, is a subsequence of the input, has no
duplicates and no empty entries, and contains every nonempty input value. -/
theorem C9_uniq_dedup (xs : List (List Char)) (x : List Char) :
    uniq xs = dedupFirst xs.length (xs.filter (fun y => decide (y ≠ []))) ∧
    List.Sublist (uniq xs) xs ∧
    (uniq xs).Nodup ∧
    (x ∈ uniq xs → x ≠ []) ∧
    (x ∈ xs → x ≠ [] → x ∈ uniq xs) := by
  refine ⟨?_, uniqAux_sublist xs [], uniqAux_nodup xs [],
    fun h => (uniqAux_mem_prop xs [] x h).1,
    fun h hne => uniqAux_complete xs [] x h hne (by simp)⟩
  rw [uniq, uniqAux_eq_dedupFirst xs.length xs [] (le_refl _)]
  congr 1
  apply List.filter_congr
  intro y _
  simp

/-- Witness for C9: a concrete accumulated list with duplicates and an
empty entry keeps the nonempty value `b` and drops nothing else it
should keep. -/
theorem C9_uniq_dedup_witness :
    ("b".data) ∈ uniq [("a".data), ("b".data), ("a".data), [], ("b".data)] ∧
    ("b".data) ≠ [] := by
  refine ⟨?_, ?_⟩
  · exact (C9_uniq_dedup [("a".data), ("b".data), ("a".data), [], ("b".data)]
      ("b".data)).2.2.2.2 (by decide) (by decide)
  · exact (C9_uniq_dedup [("a".data), ("b".data), ("a".data), [], ("b".data)]
      ("b".data)).2.2.2.1 (by decide)

/-! ### C10: `to_abs` is idempotent -/

/-- The function `to_abs` fixes any string beginning with `h` (in particular its own
`https:`-prefixed outputs). -/
theorem to_abs_cons_h (s : List Char) : to_abs ('h' :: s) = 'h' :: s := by
  have h2 : pyStartswith ("//".data) ('h' :: s) = false := by
    simp [pyStartswith]
  have h3 : pyStartswith ("/".data) ('h' :: s) = false := by
    simp [pyStartswith]
  simp [to_abs, h2, h3]

theorem to_abs_detail_eq (u : List Char) : to_abs_detail u = to_abs u := by
  rw [to_abs_detail, to_abs]

/-- C10: the URL absolutizer is idempotent in both of its char-identical
copies: a protocol-relative `//` prefix gets `https:` prepended, a
`/`-prefixed path is joined onto the site root, anything else — including
the empty string and already-absolute URLs — is returned unchanged; every
produced value is a fixed point. -/
theorem C10_to_abs_idempotent (u : List Char) :
    to_abs (to_abs u) = to_abs u ∧
    to_abs_detail (to_abs_detail u) = to_abs_detail u := by
  have hmain : to_abs (to_abs u) = to_abs u := by
    cases u with
    | nil => decide
    | cons c cs =>
      by_cases h2 : pyStartswith ("//".data) (c :: cs) = true
      · have hv : to_abs (c :: cs) = ("https:".data) ++ (c :: cs) := by
          rw [to_abs, if_neg (by simp), if_pos h2]
        rw [hv]
        exact to_abs_cons_h (("ttps:".data) ++ (c :: cs))
      · by_cases h3 : pyStartswith ("/".data) (c :: cs) = true
        · have hv : to_abs (c :: cs) = SITE_ROOT ++ (c :: cs) := by
            rw [to_abs, if_neg (by simp), if_neg h2, if_pos h3]
          rw [hv]
          exact to_abs_cons_h (("ttps://boardgamegeek.com".data) ++ (c :: cs))
        · have hv : to_abs (c :: cs) = c :: cs := by
            rw [to_abs, if_neg (by simp), if_neg h2, if_neg h3]
          rw [hv, hv]
  exact ⟨hmain, by rw [to_abs_detail_eq, to_abs_detail_eq, hmain]⟩

end BoardBased
